import Mathlib

/-!
Shallow embedding of the autonomous-news-hub collector
(`ollect_news.py`): classifier functions, scorer, and the
aggregator pipeline (dedup → score → stable sort → truncate → snapshot).

Timestamps are modelled as rational numbers of hours on a common axis;
an item's `publishedAt` is `some t` when the ISO string parses to time
`t` and `none` when parsing fails (missing, empty or malformed string).
Python float arithmetic is modelled as exact real arithmetic, and
Python's `round` (banker's rounding, round half to even) is modelled
by `round_half_even`.
-/

namespace NewsHub

/-- Substring test: Python's `kw in text`. -/
def strContains (s pat : String) : Bool := decide (pat.data <:+: s.data)

/-- Python's `str.lower()` (ASCII case mapping, as all keywords are ASCII);
character-by-character so that the kernel can evaluate it. -/
def lowerStr (s : String) : String := String.mk (s.data.map Char.toLower)

/-- The `COMPANIES` table, in declared (insertion) order. -/
def COMPANIES : List (String × List String) :=
  [ ("tesla", ["tesla", "fsd", "autopilot", "elon musk"]),
    ("waymo", ["waymo"]),
    ("uber", ["uber autonomous"]),
    ("zoox", ["zoox"]),
    ("cruise", ["cruise", "gm cruise"]),
    ("aurora", ["aurora innovation"]),
    ("baidu", ["baidu apollo", "apollo go"]),
    ("pony", ["pony.ai"]),
    ("weride", ["weride"]),
    ("toyota", ["toyota autonomous", "woven city"]),
    ("honda", ["honda autonomous"]),
    ("nissan", ["nissan propilot"]),
    ("tier4", ["tier iv", "autoware"]) ]

/-- `any(kw in text_lower for kw in keywords)`. -/
def kwMatch (text_lower : String) (kws : List String) : Bool :=
  kws.any (fun kw => strContains text_lower kw)

/-- `detect_company`: first declared company one of whose keywords is a
substring of the lower-cased text; `"other"` if none match. -/
def detect_company (text : String) : String :=
  match COMPANIES.find? (fun p => kwMatch (lowerStr text) p.2) with
  | some p => p.1
  | none => "other"

/-- High-importance keywords of `calculate_importance`. -/
def highKws : List String := ["launch", "announce", "official", "first", "approve"]

/-- Medium-importance keywords of `calculate_importance`. -/
def mediumKws : List String := ["update", "plan", "test", "expand"]

/-- `calculate_importance(title, desc)`. -/
def calculate_importance (title desc : String) : String :=
  let text := lowerStr (title ++ " " ++ desc)
  if kwMatch text highKws then "high"
  else if kwMatch text mediumKws then "medium"
  else "low"

/-- The tag `patterns` table of `extract_tags`, in declared order. -/
def tagPatterns : List (String × List String) :=
  [ ("FSD", ["fsd"]), ("Level4", ["level 4"]), ("Commercial", ["commercial", "launch"]),
    ("Partnership", ["partnership", "deal"]), ("China", ["china", "chinese"]),
    ("Japan", ["japan"]), ("USA", ["us", "america", "california"]) ]

/-- `extract_tags(title)`: tags whose keyword lists match the lower-cased
title, in declared pattern order, capped at the first 5. -/
def extract_tags (title : String) : List String :=
  (((tagPatterns.filter (fun p => kwMatch (lowerStr title) p.2)).map Prod.fst).take 5)

/-- Engagement counts (`likes`, `comments`, `shares`), non-negative. -/
structure Engagement where
  likes : ℕ
  comments : ℕ
  shares : ℕ
deriving DecidableEq, Repr

/-- The fields of a normalized news item that the aggregator pipeline
reads: dedup key, scoring inputs, and the attached score. -/
structure NItem where
  url : String
  publishedAt : Option ℚ
  engagement : Engagement
  source : String
  importance : String
  priorityScore : ℤ
deriving DecidableEq, Repr

/-- Recency sub-score: `max(0, 100 - hours * 4)` when the timestamp
parses (`hours = now - t`), constant `50` on parse failure. -/
def time_score (now : ℚ) (pub : Option ℚ) : ℚ :=
  match pub with
  | some t => max 0 (100 - (now - t) * 4)
  | none => 50

/-- `total = likes + comments*3 + shares*2`. -/
def eng_total (e : Engagement) : ℕ :=
  e.likes + e.comments * 3 + e.shares * 2

/-- Engagement sub-score: `min(100, sqrt(total) * 2)` when `total > 0`,
else the constant floor `10`. -/
noncomputable def eng_score (e : Engagement) : ℝ :=
  if 0 < eng_total e then min 100 (Real.sqrt (eng_total e) * 2) else 10

/-- `src_weights.get(source, 1.0)`. -/
def src_weight (s : String) : ℚ :=
  if s = "official" then 1.5
  else if s = "news" then 1
  else if s = "x" then 0.8
  else if s = "reddit" then 0.7
  else 1

/-- Source sub-score: weight times 30. -/
def src_score (s : String) : ℚ := src_weight s * 30

/-- `imp_bonus.get(importance, 0)`. -/
def imp_bonus (s : String) : ℚ :=
  if s = "high" then 20
  else if s = "medium" then 10
  else if s = "low" then 0
  else 0

/-- Python's `round`: round half to even. -/
noncomputable def round_half_even (x : ℝ) : ℤ :=
  if x - ⌊x⌋ < 1/2 then ⌊x⌋
  else if 1/2 < x - ⌊x⌋ then ⌊x⌋ + 1
  else if Even ⌊x⌋ then ⌊x⌋ else ⌊x⌋ + 1

/-- `calc_score(item)` relative to the reference time `now`. -/
noncomputable def calc_score (now : ℚ) (it : NItem) : ℤ :=
  round_half_even ((time_score now it.publishedAt : ℝ) * 0.3
    + eng_score it.engagement * 0.35
    + (src_score it.source : ℝ) * 0.2
    + (imp_bonus it.importance : ℝ) * 0.15)

/-- Dedup loop of `main`: keep an item iff its url is not in `seen`,
adding kept urls to `seen`. -/
def dedup_aux (seen : List String) : List NItem → List NItem
  | [] => []
  | it :: rest =>
    if it.url ∈ seen then dedup_aux seen rest
    else it :: dedup_aux (it.url :: seen) rest

/-- Deduplication by url, first occurrence wins. -/
def dedup (l : List NItem) : List NItem := dedup_aux [] l

/-- Stable insertion for descending order: the incoming (later) item goes
after every already-placed item of score ≥ its own. -/
def insertDesc (x : NItem) : List NItem → List NItem
  | [] => [x]
  | y :: ys =>
    if y.priorityScore < x.priorityScore then x :: y :: ys
    else y :: insertDesc x ys

/-- Stable sort descending by `priorityScore`
(Python `list.sort(key=..., reverse=True)` is stable). -/
def sortDesc (l : List NItem) : List NItem :=
  l.foldl (fun acc x => insertDesc x acc) []

/-- The persisted snapshot shape. -/
structure Snapshot where
  lastUpdated : String
  totalCount : ℕ
  news : List NItem
deriving Repr

/-- The `main` pipeline after fetching: dedup by url, attach
`priorityScore`, sort descending, truncate to 100, wrap with metadata. -/
noncomputable def build_snapshot (nowStr : String) (now : ℚ) (all_news : List NItem) : Snapshot :=
  let unique := dedup all_news
  let scored := unique.map (fun it => { it with priorityScore := calc_score now it })
  let final := (sortDesc scored).take 100
  { lastUpdated := nowStr, totalCount := final.length, news := final }


/-! ### Lemmas about `round_half_even` -/

theorem floor_le_rhe (x : ℝ) : ⌊x⌋ ≤ round_half_even x := by
  unfold round_half_even
  split_ifs <;> omega

theorem rhe_le_floor_add_one (x : ℝ) : round_half_even x ≤ ⌊x⌋ + 1 := by
  unfold round_half_even
  split_ifs <;> omega

theorem rhe_intCast (n : ℤ) : round_half_even (n : ℝ) = n := by
  unfold round_half_even
  rw [Int.floor_intCast]
  have h : (n : ℝ) - n < 1/2 := by norm_num
  rw [if_pos h]

theorem rhe_mono {x y : ℝ} (hxy : x ≤ y) :
    round_half_even x ≤ round_half_even y := by
  rcases lt_or_eq_of_le (Int.floor_le_floor hxy) with hf | hf
  · calc round_half_even x ≤ ⌊x⌋ + 1 := rhe_le_floor_add_one x
      _ ≤ ⌊y⌋ := by omega
      _ ≤ round_half_even y := floor_le_rhe y
  · unfold round_half_even
    rw [hf]
    have hfr : x - ⌊y⌋ ≤ y - ⌊y⌋ := by linarith
    split_ifs <;> first | omega | linarith


/-! ### Bounds on the sub-scores -/

theorem time_score_nonneg (now : ℚ) (pub : Option ℚ) : 0 ≤ time_score now pub := by
  cases pub with
  | none => norm_num [time_score]
  | some t => exact le_max_left _ _

theorem time_score_le_100_of_le (now t : ℚ) (h : t ≤ now) :
    time_score now (some t) ≤ 100 := by
  have h4 : 0 ≤ (now - t) * 4 := mul_nonneg (by linarith) (by norm_num)
  simp only [time_score]
  exact max_le (by norm_num) (by linarith)

theorem time_score_none (now : ℚ) : time_score now none = 50 := rfl

theorem eng_score_nonneg (e : Engagement) : 0 ≤ eng_score e := by
  unfold eng_score
  split_ifs
  · exact le_min (by norm_num) (by positivity)
  · norm_num

theorem eng_score_le_100 (e : Engagement) : eng_score e ≤ 100 := by
  unfold eng_score
  split_ifs
  · exact min_le_left _ _
  · norm_num

theorem src_score_nonneg (s : String) : 0 ≤ src_score s := by
  unfold src_score src_weight
  split_ifs <;> norm_num

theorem src_score_le_45 (s : String) : src_score s ≤ 45 := by
  unfold src_score src_weight
  split_ifs <;> norm_num

theorem imp_bonus_nonneg (s : String) : 0 ≤ imp_bonus s := by
  unfold imp_bonus
  split_ifs <;> norm_num

theorem imp_bonus_le_20 (s : String) : imp_bonus s ≤ 20 := by
  unfold imp_bonus
  split_ifs <;> norm_num

/-! ### C1: range of `calc_score` -/

/-- C1 (counterexample): the claim "calc_score is always in 0..100, even for
items whose publishedAt lies in the future" is false: an item published 2000
hours after the reference time has recency sub-score 8100 and total score
2441 > 100. -/
theorem calc_score_can_exceed_100 :
    100 < calc_score 0 ⟨"u", some 2000, ⟨0, 0, 0⟩, "news", "medium", 0⟩ := by
  have e1 : time_score 0 (some 2000) = 8100 := by norm_num [time_score]
  have e2 : eng_score ⟨0, 0, 0⟩ = 10 := by norm_num [eng_score, eng_total]
  have e3 : src_score "news" = 30 := by simp [src_score, src_weight]
  have e4 : imp_bonus "medium" = 10 := by simp [imp_bonus]
  have hdef : calc_score 0 ⟨"u", some 2000, ⟨0, 0, 0⟩, "news", "medium", 0⟩ =
      round_half_even ((time_score 0 (some 2000) : ℝ) * 0.3
        + eng_score ⟨0, 0, 0⟩ * 0.35 + (src_score "news" : ℝ) * 0.2
        + (imp_bonus "medium" : ℝ) * 0.15) := rfl
  have hsum : (time_score 0 (some 2000) : ℝ) * 0.3
      + eng_score ⟨0, 0, 0⟩ * 0.35 + (src_score "news" : ℝ) * 0.2
      + (imp_bonus "medium" : ℝ) * 0.15 = ((2441 : ℤ) : ℝ) := by
    rw [e1, e2, e3, e4]
    push_cast
    norm_num
  rw [hdef, hsum, rhe_intCast]
  norm_num

/-- C1 (amended): for every item whose publishedAt either fails to parse or
parses to a time not after the reference time, calc_score returns an integer
in the range 0 to 100 inclusive. -/
theorem calc_score_range_of_not_future (now : ℚ) (it : NItem)
    (h : ∀ t, it.publishedAt = some t → t ≤ now) :
    0 ≤ calc_score now it ∧ calc_score now it ≤ 100 := by
  have ht1 : time_score now it.publishedAt ≤ 100 := by
    cases hp : it.publishedAt with
    | none => rw [time_score_none]; norm_num
    | some t => exact time_score_le_100_of_le now t (h t hp)
  have ht1c : ((time_score now it.publishedAt : ℚ) : ℝ) ≤ 100 := by exact_mod_cast ht1
  have ht0c : (0 : ℝ) ≤ ((time_score now it.publishedAt : ℚ) : ℝ) := by
    exact_mod_cast time_score_nonneg now it.publishedAt
  have he0 := eng_score_nonneg it.engagement
  have he1 := eng_score_le_100 it.engagement
  have hs0c : (0 : ℝ) ≤ ((src_score it.source : ℚ) : ℝ) := by
    exact_mod_cast src_score_nonneg it.source
  have hs1c : ((src_score it.source : ℚ) : ℝ) ≤ 45 := by
    exact_mod_cast src_score_le_45 it.source
  have hi0c : (0 : ℝ) ≤ ((imp_bonus it.importance : ℚ) : ℝ) := by
    exact_mod_cast imp_bonus_nonneg it.importance
  have hi1c : ((imp_bonus it.importance : ℚ) : ℝ) ≤ 20 := by
    exact_mod_cast imp_bonus_le_20 it.importance
  have hx0 : (0 : ℝ) ≤ (time_score now it.publishedAt : ℝ) * 0.3
      + eng_score it.engagement * 0.35 + (src_score it.source : ℝ) * 0.2
      + (imp_bonus it.importance : ℝ) * 0.15 := by linarith
  have hx1 : (time_score now it.publishedAt : ℝ) * 0.3
      + eng_score it.engagement * 0.35 + (src_score it.source : ℝ) * 0.2
      + (imp_bonus it.importance : ℝ) * 0.15 ≤ 77 := by linarith
  unfold calc_score
  constructor
  · calc (0 : ℤ) ≤ ⌊(time_score now it.publishedAt : ℝ) * 0.3
        + eng_score it.engagement * 0.35 + (src_score it.source : ℝ) * 0.2
        + (imp_bonus it.importance : ℝ) * 0.15⌋ := Int.floor_nonneg.mpr hx0
      _ ≤ _ := floor_le_rhe _
  · have hf : ⌊(time_score now it.publishedAt : ℝ) * 0.3
        + eng_score it.engagement * 0.35 + (src_score it.source : ℝ) * 0.2
        + (imp_bonus it.importance : ℝ) * 0.15⌋ ≤ 77 := by
      have hle : (⌊(time_score now it.publishedAt : ℝ) * 0.3
          + eng_score it.engagement * 0.35 + (src_score it.source : ℝ) * 0.2
          + (imp_bonus it.importance : ℝ) * 0.15⌋ : ℝ) ≤ 77 :=
        le_trans (Int.floor_le _) hx1
      exact_mod_cast hle
    calc round_half_even _ ≤ _ + 1 := rhe_le_floor_add_one _
      _ ≤ 100 := by omega

/-- C1 (witness): the amended range theorem applied to a concrete item
published 5 hours before the reference time. -/
theorem calc_score_range_of_not_future_witness :
    0 ≤ calc_score 0 ⟨"w", some (-5), ⟨0, 0, 0⟩, "news", "high", 0⟩ ∧
    calc_score 0 ⟨"w", some (-5), ⟨0, 0, 0⟩, "news", "high", 0⟩ ≤ 100 :=
  calc_score_range_of_not_future 0 _ (fun t ht => by
    obtain rfl : t = -5 := (Option.some.inj ht).symm
    norm_num)


/-! ### C2: recency monotonicity and the 25-hour cutoff -/

theorem time_score_mono (now : ℚ) {t1 t2 : ℚ} (h : t1 ≤ t2) :
    time_score now (some t1) ≤ time_score now (some t2) := by
  simp only [time_score]
  exact max_le_max (le_refl 0) (by linarith)

/-- C2: holding every field but publishedAt fixed, a more recent parsed
publishedAt gives a `calc_score` greater than or equal to an older one; and a
parsed publishedAt more than 25 hours before the reference time has recency
sub-score 0. -/
theorem calc_score_recency_mono :
    (∀ (now t1 t2 : ℚ) (u s imp : String) (e : Engagement) (p : ℤ), t1 ≤ t2 →
      calc_score now ⟨u, some t1, e, s, imp, p⟩ ≤ calc_score now ⟨u, some t2, e, s, imp, p⟩)
    ∧ (∀ now t : ℚ, 25 < now - t → time_score now (some t) = 0) := by
  constructor
  · intro now t1 t2 u s imp e p h12
    unfold calc_score
    apply rhe_mono
    have hts : ((time_score now (some t1) : ℚ) : ℝ) ≤ ((time_score now (some t2) : ℚ) : ℝ) := by
      exact_mod_cast time_score_mono now h12
    simp only
    linarith
  · intro now t h25
    simp only [time_score]
    exact max_eq_left (by linarith)

/-- C2 (witness): the monotonicity applied to items 10 and 2 hours old, and
the cutoff applied to an item 30 hours old. -/
theorem calc_score_recency_mono_witness :
    calc_score 0 ⟨"u", some (-10), ⟨0, 0, 0⟩, "news", "low", 0⟩ ≤
      calc_score 0 ⟨"u", some (-2), ⟨0, 0, 0⟩, "news", "low", 0⟩ ∧
    time_score 0 (some (-30)) = 0 :=
  ⟨calc_score_recency_mono.1 0 (-10) (-2) "u" "news" "low" ⟨0, 0, 0⟩ 0 (by norm_num),
   calc_score_recency_mono.2 0 (-30) (by norm_num)⟩

/-! ### C5: the engagement sub-score -/

/-- C5: with total = likes + 3*comments + 2*shares, the engagement sub-score
is min(100, sqrt(total) * 2) when total > 0 and exactly 10 when total = 0. -/
theorem eng_score_spec (e : Engagement) :
    (0 < eng_total e →
      eng_score e = min 100 (Real.sqrt ((e.likes : ℝ) + 3 * (e.comments : ℝ) + 2 * (e.shares : ℝ)) * 2))
    ∧ (eng_total e = 0 → eng_score e = 10) := by
  constructor
  · intro h
    have harg : ((eng_total e : ℕ) : ℝ)
        = (e.likes : ℝ) + 3 * (e.comments : ℝ) + 2 * (e.shares : ℝ) := by
      push_cast [eng_total]
      ring
    unfold eng_score
    rw [if_pos h, harg]
  · intro h
    unfold eng_score
    rw [if_neg (by omega)]

/-- C5 (witness): the engagement sub-score at total 4 (likes only) and at
total 0. -/
theorem eng_score_spec_witness :
    eng_score ⟨4, 0, 0⟩ =
      min 100 (Real.sqrt (((4 : ℕ) : ℝ) + 3 * ((0 : ℕ) : ℝ) + 2 * ((0 : ℕ) : ℝ)) * 2) ∧
    eng_score ⟨0, 0, 0⟩ = 10 :=
  ⟨(eng_score_spec ⟨4, 0, 0⟩).1 (by norm_num [eng_total]),
   (eng_score_spec ⟨0, 0, 0⟩).2 (by norm_num [eng_total])⟩

/-! ### C7: importance tiers -/

/-- C7: calculate_importance returns "high" iff a high keyword occurs in the
lower-cased title + " " + description; otherwise "medium" iff a medium
keyword occurs; otherwise "low" (high beats medium beats low). -/
theorem calculate_importance_tiers (title desc : String) :
    (calculate_importance title desc = "high" ↔
      kwMatch (lowerStr (title ++ " " ++ desc)) highKws = true)
    ∧ (calculate_importance title desc = "medium" ↔
      (kwMatch (lowerStr (title ++ " " ++ desc)) highKws = false ∧
       kwMatch (lowerStr (title ++ " " ++ desc)) mediumKws = true))
    ∧ (calculate_importance title desc = "low" ↔
      (kwMatch (lowerStr (title ++ " " ++ desc)) highKws = false ∧
       kwMatch (lowerStr (title ++ " " ++ desc)) mediumKws = false)) := by
  unfold calculate_importance
  cases hh : kwMatch (lowerStr (title ++ " " ++ desc)) highKws <;>
    cases hm : kwMatch (lowerStr (title ++ " " ++ desc)) mediumKws <;>
      simp [hh, hm]

/-- C7 (witness): "Tesla launches an update" contains both a high keyword
("launch") and a medium keyword ("update") and is classified "high". -/
theorem calculate_importance_tiers_witness :
    calculate_importance "Tesla launches an update" "" = "high" :=
  (calculate_importance_tiers "Tesla launches an update" "").1.mpr (by decide)

/-! ### C8: timestamp parse failure -/

/-- C8: when publishedAt fails to parse (missing, empty or malformed, modelled
as `none`), the recency sub-score is the constant 50 and calc_score still
returns an integer, combining 50 with the other sub-scores as usual. -/
theorem calc_score_parse_fallback (now : ℚ) (it : NItem)
    (h : it.publishedAt = none) :
    time_score now it.publishedAt = 50 ∧
    calc_score now it = round_half_even ((50 : ℝ) * 0.3
      + eng_score it.engagement * 0.35 + (src_score it.source : ℝ) * 0.2
      + (imp_bonus it.importance : ℝ) * 0.15) := by
  constructor
  · rw [h, time_score_none]
  · unfold calc_score
    rw [h, time_score_none]
    norm_num

/-- C8 (witness): the fallback applied to a concrete item with unparsable
publishedAt. -/
theorem calc_score_parse_fallback_witness :
    time_score 7 (NItem.publishedAt ⟨"u", none, ⟨1, 2, 3⟩, "x", "low", 0⟩) = 50 ∧
    calc_score 7 ⟨"u", none, ⟨1, 2, 3⟩, "x", "low", 0⟩ = round_half_even ((50 : ℝ) * 0.3
      + eng_score ⟨1, 2, 3⟩ * 0.35 + (src_score "x" : ℝ) * 0.2
      + (imp_bonus "low" : ℝ) * 0.15) :=
  calc_score_parse_fallback 7 ⟨"u", none, ⟨1, 2, 3⟩, "x", "low", 0⟩ rfl

/-! ### C9: snapshot count invariant -/

/-- C9: in every built snapshot, totalCount equals the length of the news
sequence actually written. -/
theorem snapshot_totalCount (nowStr : String) (now : ℚ) (l : List NItem) :
    (build_snapshot nowStr now l).totalCount = (build_snapshot nowStr now l).news.length := rfl

/-! ### C3: deduplication keeps the first occurrence of each url -/

theorem dedup_aux_sublist (l : List NItem) :
    ∀ seen : List String, List.Sublist (dedup_aux seen l) l := by
  induction l with
  | nil => intro seen; simp [dedup_aux]
  | cons it rest ih =>
    intro seen
    by_cases h : it.url ∈ seen
    · rw [dedup_aux, if_pos h]
      exact (ih seen).cons it
    · rw [dedup_aux, if_neg h]
      exact (ih (it.url :: seen)).cons₂ it

theorem dedup_aux_count (l : List NItem) :
    ∀ (seen : List String) (u : String),
      ((dedup_aux seen l).map NItem.url).count u =
        if u ∈ seen then 0 else min (((l.map NItem.url).count u)) 1 := by
  induction l with
  | nil => intro seen u; simp [dedup_aux]
  | cons it rest ih =>
    intro seen u
    by_cases h : it.url ∈ seen
    · rw [dedup_aux, if_pos h, ih seen u]
      by_cases hu : u ∈ seen
      · simp [hu]
      · have hb : (it.url == u) = false := by
          rw [beq_eq_false_iff_ne]
          intro he
          exact hu (he ▸ h)
        rw [if_neg hu, if_neg hu, List.map_cons, List.count_cons, hb]
        simp
    · rw [dedup_aux, if_neg h, List.map_cons, List.map_cons,
        List.count_cons, List.count_cons, ih (it.url :: seen) u]
      by_cases hequ : it.url = u
      · have hu' : u ∈ it.url :: seen := by rw [hequ] at *; exact List.mem_cons_self u seen
        have hu0 : ¬u ∈ seen := fun hc => h (hequ ▸ hc)
        have hb : (it.url == u) = true := beq_iff_eq.mpr hequ
        rw [if_pos hu', if_neg hu0, hb]
        simp
      · have hb : (it.url == u) = false := beq_eq_false_iff_ne.mpr hequ
        have hmem : (u ∈ it.url :: seen) ↔ (u ∈ seen) := by
          simp only [List.mem_cons]
          constructor
          · rintro (rfl | hc)
            · exact absurd rfl hequ
            · exact hc
          · exact Or.inr
        rw [hb]
        by_cases hu : u ∈ seen
        · rw [if_pos (hmem.mpr hu), if_pos hu]
          simp
        · rw [if_neg (fun hc => hu (hmem.mp hc)), if_neg hu]
          simp

theorem dedup_aux_find (l : List NItem) :
    ∀ (seen : List String) (u : String), u ∉ seen →
      (dedup_aux seen l).find? (fun x => x.url == u) = l.find? (fun x => x.url == u) := by
  induction l with
  | nil => intro seen u _; simp [dedup_aux]
  | cons it rest ih =>
    intro seen u hu
    by_cases h : it.url ∈ seen
    · have hb : (it.url == u) = false := by
        rw [beq_eq_false_iff_ne]
        intro he
        exact hu (he ▸ h)
      rw [dedup_aux, if_pos h, ih seen u hu]
      simp [List.find?_cons, hb]
    · rw [dedup_aux, if_neg h]
      by_cases hequ : it.url = u
      · have hb : (it.url == u) = true := beq_iff_eq.mpr hequ
        simp [List.find?_cons, hb]
      · have hb : (it.url == u) = false := beq_eq_false_iff_ne.mpr hequ
        have hu' : u ∉ it.url :: seen := by
          simp only [List.mem_cons]
          rintro (rfl | hc)
          · exact hequ rfl
          · exact hu hc
        simp only [List.find?_cons, hb]
        exact ih (it.url :: seen) u hu'

/-- C3: dedup returns a sublist of the input (so kept items appear in input
order), keeps exactly one item per url present in the input and none for
other urls, and for each url the kept item is the first item of the input
bearing it. -/
theorem dedup_first_occurrence (l : List NItem) :
    List.Sublist (dedup l) l
    ∧ (∀ u : String, ((dedup l).map NItem.url).count u = min (((l.map NItem.url).count u)) 1)
    ∧ (∀ u : String, (dedup l).find? (fun x => x.url == u) = l.find? (fun x => x.url == u)) := by
  refine ⟨dedup_aux_sublist l [], fun u => ?_, fun u => dedup_aux_find l [] u (by simp)⟩
  rw [dedup, dedup_aux_count l [] u, if_neg (by simp)]

/-! ### C4: stable descending sort and truncation -/

theorem mem_insertDesc {x a : NItem} {l : List NItem} :
    a ∈ insertDesc x l ↔ a = x ∨ a ∈ l := by
  induction l with
  | nil => simp [insertDesc]
  | cons y ys ih =>
    by_cases h : y.priorityScore < x.priorityScore
    · rw [insertDesc, if_pos h]
      simp [List.mem_cons]
    · rw [insertDesc, if_neg h]
      simp only [List.mem_cons, ih]
      tauto

theorem insertDesc_sorted {x : NItem} {l : List NItem}
    (h : List.Sorted (fun a b => b.priorityScore ≤ a.priorityScore) l) :
    List.Sorted (fun a b => b.priorityScore ≤ a.priorityScore) (insertDesc x l) := by
  induction l with
  | nil => simp [insertDesc]
  | cons y ys ih =>
    rw [List.sorted_cons] at h
    by_cases hlt : y.priorityScore < x.priorityScore
    · rw [insertDesc, if_pos hlt, List.sorted_cons]
      refine ⟨fun b hb => ?_, List.sorted_cons.mpr h⟩
      rcases List.mem_cons.mp hb with rfl | hb2
      · exact le_of_lt hlt
      · exact le_trans (h.1 b hb2) (le_of_lt hlt)
    · rw [insertDesc, if_neg hlt, List.sorted_cons]
      refine ⟨fun b hb => ?_, ih h.2⟩
      rcases mem_insertDesc.mp hb with rfl | hb2
      · exact le_of_not_lt hlt
      · exact h.1 b hb2

theorem insertDesc_perm (x : NItem) (l : List NItem) :
    List.Perm (insertDesc x l) (x :: l) := by
  induction l with
  | nil => simp [insertDesc]
  | cons y ys ih =>
    by_cases h : y.priorityScore < x.priorityScore
    · rw [insertDesc, if_pos h]
    · rw [insertDesc, if_neg h]
      exact (ih.cons y).trans (List.Perm.swap x y ys)

theorem foldl_insertDesc_sorted (l : List NItem) :
    ∀ acc, List.Sorted (fun a b => b.priorityScore ≤ a.priorityScore) acc →
      List.Sorted (fun a b => b.priorityScore ≤ a.priorityScore)
        (l.foldl (fun acc x => insertDesc x acc) acc) := by
  induction l with
  | nil => intro acc h; simpa using h
  | cons x xs ih =>
    intro acc h
    rw [List.foldl_cons]
    exact ih _ (insertDesc_sorted h)

theorem sortDesc_sorted (l : List NItem) :
    List.Sorted (fun a b => b.priorityScore ≤ a.priorityScore) (sortDesc l) :=
  foldl_insertDesc_sorted l [] (by simp)

theorem foldl_insertDesc_perm (l : List NItem) :
    ∀ acc, List.Perm (l.foldl (fun acc x => insertDesc x acc) acc) (acc ++ l) := by
  induction l with
  | nil => intro acc; simp
  | cons x xs ih =>
    intro acc
    rw [List.foldl_cons]
    have h1 := ih (insertDesc x acc)
    have h2 : List.Perm (insertDesc x acc ++ xs) ((x :: acc) ++ xs) :=
      (insertDesc_perm x acc).append_right xs
    have h3 : List.Perm ((x :: acc) ++ xs) (acc ++ x :: xs) := by
      simpa using List.perm_middle.symm
    exact h1.trans (h2.trans h3)

theorem sortDesc_perm (l : List NItem) : List.Perm (sortDesc l) l := by
  simpa using foldl_insertDesc_perm l []

theorem filter_insertDesc (c : ℤ) (x : NItem) (l : List NItem)
    (h : List.Sorted (fun a b => b.priorityScore ≤ a.priorityScore) l) :
    (insertDesc x l).filter (fun a => a.priorityScore == c) =
      if x.priorityScore == c then
        l.filter (fun a => a.priorityScore == c) ++ [x]
      else l.filter (fun a => a.priorityScore == c) := by
  induction l with
  | nil =>
    cases hxc : x.priorityScore == c <;> simp [insertDesc, List.filter, hxc]
  | cons y ys ih =>
    rw [List.sorted_cons] at h
    by_cases hlt : y.priorityScore < x.priorityScore
    · rw [insertDesc, if_pos hlt]
      cases hxc : x.priorityScore == c with
      | false => simp [List.filter_cons, hxc]
      | true =>
        have hxc2 : x.priorityScore = c := beq_iff_eq.mp hxc
        have hnil : (y :: ys).filter (fun a => a.priorityScore == c) = [] := by
          rw [List.filter_eq_nil_iff]
          intro a ha
          rcases List.mem_cons.mp ha with rfl | ha2
          · simp only [beq_iff_eq]
            omega
          · have := h.1 a ha2
            simp only [beq_iff_eq]
            omega
        simp [List.filter_cons, hxc, hnil]
    · rw [insertDesc, if_neg hlt, List.filter_cons, List.filter_cons, ih h.2]
      cases hxc : x.priorityScore == c <;> cases hyc : y.priorityScore == c <;>
        simp [hxc, hyc]

theorem filter_foldl_insertDesc (l : List NItem) (c : ℤ) :
    ∀ acc, List.Sorted (fun a b => b.priorityScore ≤ a.priorityScore) acc →
      (l.foldl (fun acc x => insertDesc x acc) acc).filter (fun a => a.priorityScore == c) =
        acc.filter (fun a => a.priorityScore == c) ++ l.filter (fun a => a.priorityScore == c) := by
  induction l with
  | nil => intro acc h; simp
  | cons x xs ih =>
    intro acc h
    rw [List.foldl_cons, ih _ (insertDesc_sorted h), filter_insertDesc c x acc h,
      List.filter_cons]
    cases hxc : x.priorityScore == c <;> simp [hxc]

theorem sortDesc_filter (l : List NItem) (c : ℤ) :
    (sortDesc l).filter (fun a => a.priorityScore == c) =
      l.filter (fun a => a.priorityScore == c) := by
  simpa using filter_foldl_insertDesc l c [] (by simp)

/-- C4: the truncated sorted list is non-increasing in priorityScore, has
length at most 100, the full sort is a permutation of the input, and for every
score value the items holding it in the output form a prefix of (hence in the
same relative order as) the items holding it in the input. -/
theorem sorted_truncated_news (l : List NItem) :
    List.Sorted (fun a b => b.priorityScore ≤ a.priorityScore) ((sortDesc l).take 100)
    ∧ ((sortDesc l).take 100).length ≤ 100
    ∧ List.Perm (sortDesc l) l
    ∧ (∀ c : ℤ, ∃ k, ((sortDesc l).take 100).filter (fun a => a.priorityScore == c) =
        (l.filter (fun a => a.priorityScore == c)).take k) := by
  refine ⟨?_, ?_, sortDesc_perm l, fun c => ?_⟩
  · exact List.Pairwise.sublist (List.take_sublist 100 (sortDesc l)) (sortDesc_sorted l)
  · simp
  · have hpre := List.IsPrefix.filter (fun a => a.priorityScore == c)
      ( List.take_prefix 100 (sortDesc l))
    rw [sortDesc_filter l c] at hpre
    exact ⟨_, List.prefix_iff_eq_take.mp hpre⟩

/-! ### C6: first-declared company wins -/

theorem find_first_of_match {α : Type} (p : α → Bool) :
    ∀ (l : List α) (i : ℕ) (hi : i < l.length),
      p (l.get ⟨i, hi⟩) = true →
      (∀ j (hj : j < i), p (l.get ⟨j, Nat.lt_trans hj hi⟩) = false) →
      l.find? p = some (l.get ⟨i, hi⟩) := by
  intro l
  induction l with
  | nil => intro i hi; simp at hi
  | cons x xs ih =>
    intro i hi hp hearlier
    cases i with
    | zero => simp [List.find?_cons, List.get] at hp ⊢; simp [hp]
    | succ n =>
      have hx : p x = false := hearlier 0 (Nat.succ_pos n)
      simp only [List.find?_cons, hx]
      exact ih n (Nat.lt_of_succ_lt_succ hi) hp
        (fun j hj => hearlier (j + 1) (Nat.succ_lt_succ hj))

/-- C6: detect_company lower-cases the text and returns the first-declared
company one of whose keywords occurs in it; if no company keyword occurs it
returns "other". When two companies both match, the earlier-declared one
wins. -/
theorem detect_company_spec (text : String) :
    (∀ i (hi : i < COMPANIES.length),
      kwMatch (lowerStr text) (COMPANIES.get ⟨i, hi⟩).2 = true →
      (∀ j (hj : j < i), kwMatch (lowerStr text) (COMPANIES.get ⟨j, Nat.lt_trans hj hi⟩).2 = false) →
      detect_company text = (COMPANIES.get ⟨i, hi⟩).1)
    ∧ ((∀ i (hi : i < COMPANIES.length),
        kwMatch (lowerStr text) (COMPANIES.get ⟨i, hi⟩).2 = false) →
      detect_company text = "other") := by
  constructor
  · intro i hi hm he
    unfold detect_company
    rw [find_first_of_match (fun p => kwMatch (lowerStr text) p.2) COMPANIES i hi hm he]
  · intro hall
    unfold detect_company
    have hnone : COMPANIES.find? (fun p => kwMatch (lowerStr text) p.2) = none := by
      rw [List.find?_eq_none]
      intro x hx
      obtain ⟨⟨i, hi⟩, rfl⟩ := List.mem_iff_get.mp hx
      simpa using hall i hi
    rw [hnone]

/-- C6 (witness): in "Cruise and Waymo robotaxi" both waymo (declared second)
and cruise (declared fifth) match; the earlier-declared waymo wins. -/
theorem detect_company_spec_witness :
    detect_company "Cruise and Waymo robotaxi" = "waymo" :=
  (detect_company_spec "Cruise and Waymo robotaxi").1 1 (by decide) (by decide)
    (fun j hj => by
      have hj0 : j = 0 := by omega
      subst hj0
      exact (by decide : kwMatch (lowerStr "Cruise and Waymo robotaxi")
        (COMPANIES.get ⟨0, by decide⟩).2 = false))

/-! ### C10: the USA tag from the substring "us" -/

/-- C10: any title whose lower-cased form contains "us", provided at most
four of the six earlier-declared tag patterns match, gets the tag "USA". -/
theorem extract_tags_usa (title : String)
    (hus : strContains (lowerStr title) "us" = true)
    (hcount : ((tagPatterns.take 6).filter
      (fun p => kwMatch (lowerStr title) p.2)).length ≤ 4) :
    "USA" ∈ extract_tags title := by
  have hsplit : tagPatterns =
      tagPatterns.take 6 ++ [("USA", ["us", "america", "california"])] := by decide
  have husa : kwMatch (lowerStr title) ["us", "america", "california"] = true := by
    simp [kwMatch]
    exact Or.inl hus
  unfold extract_tags
  rw [hsplit, List.filter_append]
  have husafilter : List.filter (fun p => kwMatch (lowerStr title) p.2)
      [("USA", ["us", "america", "california"])] =
      [("USA", ["us", "america", "california"])] := by
    simp [List.filter, husa]
  rw [husafilter, List.map_append, List.take_append_eq_append_take]
  have hlen : (List.map Prod.fst ((tagPatterns.take 6).filter
      (fun p => kwMatch (lowerStr title) p.2))).length ≤ 4 := by
    simpa using hcount
  have htk : ∀ k : ℕ, 1 ≤ k → "USA" ∈ (["USA"] : List String).take k := by
    intro k hk
    cases k with
    | zero => omega
    | succ m => simp
  apply List.mem_append.mpr
  exact Or.inr (htk _ (by omega))

/-- C10 (witness): "autonomous" contains "us" and matches none of the six
earlier patterns, so its tags include "USA". -/
theorem extract_tags_usa_witness : "USA" ∈ extract_tags "autonomous" :=
  extract_tags_usa "autonomous" (by decide) (by decide)

end NewsHub
